import Mathlib

/-!
Verification development for the csslsrs analysis core: the folding-range
engine (src/features/folding.rs), the color extractor and presentation
generator (src/features/colors.rs), and the document store (src/store.rs).
Documents are embedded as lists of characters; offsets are character
indices (the sources and all patterns scanned here are matched
character-by-character, so byte offsets and character offsets induce the
same line structure and the same marker containment facts).
-/

/-- Kind tag of a folding range: block comments and marker regions; plain
brace blocks carry no kind (`none`). Mirrors `lsp_types::FoldingRangeKind`
as used by folding.rs. -/
inductive FoldingRangeKind where
  | comment
  | region
deriving DecidableEq, Repr

/-- A folding range: 0-based inclusive start and end lines plus the optional
kind. folding.rs always leaves `start_character`, `end_character` and
`collapsed_text` empty, so they are omitted. -/
structure FoldingRange where
  start_line : Nat
  end_line : Nat
  kind : Option FoldingRangeKind
deriving DecidableEq, Repr

/-- Offsets immediately following every line-terminator character, with `i`
the offset of the first character of the remaining list. Embeds the
`source.match_indices('\n').map(|(idx, _)| idx + 1)` part of the
`line_starts` computation in `compute_folding_ranges`. -/
def newlineOffsets : List Char → Nat → List Nat
  | [], _ => []
  | c :: rest, i =>
    if c = '\n' then (i + 1) :: newlineOffsets rest (i + 1)
    else newlineOffsets rest (i + 1)

/-- Precomputed line start offsets: offset 0 followed by the offset just
past every newline, as built at the top of `compute_folding_ranges`. -/
def lineStarts (source : List Char) : List Nat :=
  0 :: newlineOffsets source 0

/-- Length of the leading run of elements satisfying `p`: the value
`partition_point` returns on a list that is partitioned by `p`, which the
sorted `line_starts` list always is for the predicates used here. -/
def partitionPoint (p : Nat → Bool) : List Nat → Nat
  | [] => 0
  | x :: rest => if p x then partitionPoint p rest + 1 else 0

/-- Line number of a character offset, as computed at every use site in
`compute_folding_ranges`:
`line_starts.partition_point(|&s| s <= offset).saturating_sub(1)`. -/
def lineOf (ls : List Nat) (offset : Nat) : Nat :=
  partitionPoint (fun s => decide (s ≤ offset)) ls - 1

/-- Scanner state of `compute_folding_ranges`: the three marker stacks and
the ranges vector accumulated so far. -/
structure FoldState where
  braces : List Nat
  comments : List Nat
  regions : List Nat
  ranges : List FoldingRange
deriving DecidableEq, Repr

/-- Does `pat` occur at the head of the second list? Helper for the
substring containment used by `str::contains`. -/
def startsWithSeq : List Char → List Char → Bool
  | [], _ => true
  | _ :: _, [] => false
  | p :: ps, c :: cs => p == c && startsWithSeq ps cs

/-- Does `pat` occur anywhere in the list? Embeds `str::contains` for the
`#region` / `#endregion` marker checks. -/
def containsSeq (pat : List Char) : List Char → Bool
  | [] => startsWithSeq pat []
  | c :: rest => startsWithSeq pat (c :: rest) || containsSeq pat rest

/-- The `#region` marker pattern. -/
def regionPat : List Char := "#region".toList

/-- The `#endregion` marker pattern. -/
def endregionPat : List Char := "#endregion".toList

/-- `line_starts[i]` (indexing is always in bounds at the call sites). -/
def lineStartOf (ls : List Nat) (i : Nat) : Nat := ls.getD i 0

/-- End offset of a comment's content, as computed when a `*/` closes a
comment: the start of the line after `end_line`, or the end of the
document when `end_line` is the last line. -/
def endOffsetOf (source : List Char) (ls : List Nat) (endLine : Nat) : Nat :=
  if endLine + 1 < ls.length then lineStartOf ls (endLine + 1) else source.length

/-- The half-open slice `source[a..b]` of Rust. -/
def sliceList (source : List Char) (a b : Nat) : List Char :=
  (source.take b).drop a

/-- The comment content extracted for marker classification:
`&source[line_starts[start_line]..end_offset]`. -/
def commentContent (source : List Char) (ls : List Nat) (startLine endLine : Nat) : List Char :=
  sliceList source (lineStartOf ls startLine) (endOffsetOf source ls endLine)

/-- State transformation performed when a `*/` closes the comment that
started on `startLine` (already popped off the comment stack by the
caller): classify the comment's full-line content and either open a
region, close a region, or emit a comment range. -/
def closeCommentState (source : List Char) (ls : List Nat) (offset startLine : Nat)
    (st : FoldState) : FoldState :=
  let endLine := lineOf ls offset
  let content := commentContent source ls startLine endLine
  if containsSeq regionPat content then
    { st with regions := startLine :: st.regions }
  else if containsSeq endregionPat content then
    match st.regions with
    | regionStart :: rest =>
      { st with regions := rest,
                ranges := st.ranges ++ [⟨regionStart, endLine, some FoldingRangeKind.region⟩] }
    | [] => st
  else if startLine ≠ endLine then
    { st with ranges := st.ranges ++ [⟨startLine, endLine, some FoldingRangeKind.comment⟩] }
  else st

/-- The `*/` handler of the scan loop: pop the comment stack and classify
the closed comment; a `*/` with no open comment does nothing (both
characters are still consumed by the caller). -/
def closeCommentTop (source : List Char) (ls : List Nat) (offset : Nat)
    (st : FoldState) : FoldState :=
  match st.comments with
  | startLine :: cs => closeCommentState source ls offset startLine { st with comments := cs }
  | [] => st

/-- The single-character arms of the scan loop: `{` pushes the current
line on the brace stack, `}` pops it and emits a plain range when the
popped line differs from the current line (a pop of an empty stack does
nothing); every other character leaves the state unchanged. -/
def singleCharStep (ls : List Nat) (offset : Nat) (c : Char) (st : FoldState) : FoldState :=
  if c = '{' then
    { st with braces := lineOf ls offset :: st.braces }
  else if c = '}' then
    match st.braces with
    | startLine :: bs =>
      { st with braces := bs,
                ranges := st.ranges ++
                  (if startLine ≠ lineOf ls offset then
                    [⟨startLine, lineOf ls offset, none⟩]
                  else []) }
    | [] => st
  else st

/-- The character scan loop of `compute_folding_ranges`: `offset` is the
offset of the head of the remaining character list. `/*` and `*/` consume
both characters in one step, exactly like the peek-and-next pattern of the
source. -/
def scanAux (source : List Char) (ls : List Nat) : Nat → List Char → FoldState → FoldState
  | _, [], st => st
  | offset, '/' :: '*' :: rest, st =>
    scanAux source ls (offset + 2) rest { st with comments := lineOf ls offset :: st.comments }
  | offset, '*' :: '/' :: rest, st =>
    scanAux source ls (offset + 2) rest (closeCommentTop source ls offset st)
  | offset, c :: rest, st =>
    scanAux source ls (offset + 1) rest (singleCharStep ls offset c st)

/-- Empty scanner state. -/
def initialFoldState : FoldState := ⟨[], [], [], []⟩

/-- Result of the scan phase of `compute_folding_ranges` on a document. -/
def scanDocument (source : List Char) : FoldState :=
  scanAux source (lineStarts source) 0 source initialFoldState

/-- The `total_lines` value of the end-of-input reconciliation: the number
of line starts minus one, lowered once more when the text ends with a
newline (and the value is still positive). -/
def totalLinesOf (source : List Char) : Nat :=
  let t := (lineStarts source).length - 1
  if source.getLast? = some '\n' ∧ 0 < t then t - 1 else t

/-- One of the three unclosed-marker loops at the end of
`compute_folding_ranges`: pop every remaining start line and emit a range
up to `totalLines` with the given kind whenever the start line is strictly
below `totalLines`. -/
def flushStack (kind : Option FoldingRangeKind) (totalLines : Nat) :
    List Nat → List FoldingRange → List FoldingRange
  | [], acc => acc
  | startLine :: rest, acc =>
    flushStack kind totalLines rest
      (if startLine < totalLines then acc ++ [⟨startLine, totalLines, kind⟩] else acc)

/-- The folding engine: scan the text once, then flush unclosed braces,
comments and regions. Embeds `compute_folding_ranges` of folding.rs. -/
def compute_folding_ranges (source : List Char) : List FoldingRange :=
  let st := scanDocument source
  let totalLines := totalLinesOf source
  let r1 := flushStack none totalLines st.braces st.ranges
  let r2 := flushStack (some FoldingRangeKind.comment) totalLines st.comments r1
  flushStack (some FoldingRangeKind.region) totalLines st.regions r2

/-! ## Colors (src/features/colors.rs)

Color channel values are embedded as rational numbers. Every number the
presentation generator manipulates is produced by `from_rgba8` (an exact
integer divided by 255), so the double-precision arithmetic of the source
is exact on these values and the rational embedding computes the same
rounded integers and the same strings. -/

/-- Rust `f64::round`: round half away from zero. -/
def rustRound (q : ℚ) : ℤ :=
  if 0 ≤ q then Int.floor (q + 1 / 2) else -Int.floor (1 / 2 - q)

/-- Rust `as u8` on a rounded float: saturating conversion to 0..255. -/
def asU8 (z : ℤ) : ℕ :=
  if z ≤ 0 then 0 else if 255 ≤ z then 255 else z.toNat

/-- A normalized color: four components nominally in the unit interval.
Embeds both `lsp_types::Color` and `csscolorparser::Color` (the source
converts between them componentwise without change). -/
structure Color where
  red : ℚ
  green : ℚ
  blue : ℚ
  alpha : ℚ
deriving DecidableEq, Repr

/-- `csscolorparser::Color::from_rgba8`: each 8-bit component divided
by 255. -/
def Color.from_rgba8 (r g b a : ℕ) : Color :=
  ⟨(r : ℚ) / 255, (g : ℚ) / 255, (b : ℚ) / 255, (a : ℚ) / 255⟩

/-- An 8-bit RGBA quadruple. -/
structure Rgba8 where
  r : ℕ
  g : ℕ
  b : ℕ
  a : ℕ
deriving DecidableEq, Repr

/-- `csscolorparser::Color::to_rgba8`: round each component times 255 to
the nearest 8-bit integer. -/
def Color.to_rgba8 (c : Color) : Rgba8 :=
  ⟨asU8 (rustRound (c.red * 255)), asU8 (rustRound (c.green * 255)),
   asU8 (rustRound (c.blue * 255)), asU8 (rustRound (c.alpha * 255))⟩

/-- HSL plus alpha, as returned by `to_hsla`. -/
structure Hsla where
  h : ℚ
  s : ℚ
  l : ℚ
  a : ℚ
deriving DecidableEq, Repr

/-- HWB plus alpha, as returned by `to_hwba`. -/
structure Hwba where
  h : ℚ
  w : ℚ
  b : ℚ
  a : ℚ
deriving DecidableEq, Repr

/-- Modelled from the spec: the hue angle of the external color library's
RGB-to-HSL/HWB conversions (degrees in `[0, 360)`); colors.rs consumes
these conversions from the external csscolorparser crate, whose internals
are out of the spec's scope. -/
def rgbHue (r g b : ℚ) : ℚ :=
  let mx := max r (max g b)
  let mn := min r (min g b)
  if mx = mn then 0
  else
    let d := mx - mn
    let hRaw :=
      if mx = r then (g - b) / d
      else if mx = g then 2 + (b - r) / d
      else 4 + (r - g) / d
    let h := hRaw * 60
    if h < 0 then h + 360 else h

/-- Modelled from the spec: the external color library's `to_hsla`
(`hsl(H S% L%)` source values: hue in degrees, saturation and lightness
as fractions, alpha passed through unchanged). -/
def Color.to_hsla (c : Color) : Hsla :=
  let mx := max c.red (max c.green c.blue)
  let mn := min c.red (min c.green c.blue)
  let l := (mx + mn) / 2
  if mx = mn then ⟨0, 0, l, c.alpha⟩
  else
    let d := mx - mn
    let s := if l < 1 / 2 then d / (mx + mn) else d / (2 - mx - mn)
    ⟨rgbHue c.red c.green c.blue, s, l, c.alpha⟩

/-- Modelled from the spec: the external color library's `to_hwba` (hue in
degrees, whiteness = min channel, blackness = 1 - max channel, alpha
passed through unchanged). -/
def Color.to_hwba (c : Color) : Hwba :=
  let mx := max c.red (max c.green c.blue)
  let mn := min c.red (min c.green c.blue)
  ⟨rgbHue c.red c.green c.blue, mn, 1 - mx, c.alpha⟩

/-- Decimal digits of a natural number, most significant first. -/
def natChars (n : ℕ) : List Char := Nat.toDigits 10 n

/-- Decimal rendering of an integer, as Rust prints an integral float. -/
def intChars (z : ℤ) : List Char :=
  if z < 0 then '-' :: Nat.toDigits 10 z.natAbs else Nat.toDigits 10 z.toNat

/-- Rendering of `value.round()` inside a Rust format string. -/
def roundedChars (q : ℚ) : List Char := intChars (rustRound q)

/-- Two lowercase hex digits of a byte, as Rust's `{:02x}`. -/
def hexByteChars (n : ℕ) : List Char := [Nat.digitChar (n / 16), Nat.digitChar (n % 16)]

/-- `csscolorparser::Color::to_hex_string`: 6 hex digits, or 8 when the
8-bit alpha is below 255. -/
def Color.to_hex_string (c : Color) : List Char :=
  if c.to_rgba8.a < 255 then
    '#' :: (hexByteChars c.to_rgba8.r ++ hexByteChars c.to_rgba8.g
      ++ hexByteChars c.to_rgba8.b ++ hexByteChars c.to_rgba8.a)
  else
    '#' :: (hexByteChars c.to_rgba8.r ++ hexByteChars c.to_rgba8.g
      ++ hexByteChars c.to_rgba8.b)

/-- An LSP position (line and column). -/
structure Position where
  line : ℕ
  character : ℕ
deriving DecidableEq, Repr

/-- An LSP range; the field `stop` embeds the protocol's `end`. -/
structure Range where
  start : Position
  stop : Position
deriving DecidableEq, Repr

/-- An LSP text edit. -/
structure TextEdit where
  range : Range
  new_text : List Char
deriving DecidableEq, Repr

/-- An LSP color presentation; colors.rs never sets
`additional_text_edits`, so it is omitted. -/
structure ColorPresentation where
  label : List Char
  text_edit : Option TextEdit
deriving DecidableEq, Repr

/-- A color occurrence: normalized color plus source range. -/
structure ColorInformation where
  color : Color
  range : Range
deriving DecidableEq, Repr

/-- The 8-bit re-quantization at the top of `compute_color_presentations`:
`Color::from_rgba8((red * 255.).round() as u8, ...)`. -/
def quantizedColor (c : Color) : Color :=
  Color.from_rgba8 (asU8 (rustRound (c.red * 255))) (asU8 (rustRound (c.green * 255)))
    (asU8 (rustRound (c.blue * 255))) (asU8 (rustRound (c.alpha * 255)))

/-- The `rgb_string` of `compute_color_presentations` (named as a
top-level definition; the source binds it with a `let`). -/
def rgbStringOf (parsed_color : Color) : List Char :=
  let rgb_color := parsed_color.to_rgba8
  if parsed_color.alpha = 1 then
    "rgb(".toList ++ natChars rgb_color.r ++ " ".toList ++ natChars rgb_color.g
      ++ " ".toList ++ natChars rgb_color.b ++ ")".toList
  else
    "rgb(".toList ++ natChars rgb_color.r ++ " ".toList ++ natChars rgb_color.g
      ++ " ".toList ++ natChars rgb_color.b ++ " / ".toList
      ++ roundedChars (parsed_color.alpha * 100) ++ "%)".toList

/-- The `hsl_string` of `compute_color_presentations`. -/
def hslStringOf (parsed_color : Color) : List Char :=
  let hsl_color := parsed_color.to_hsla
  if hsl_color.a = 1 then
    "hsl(".toList ++ roundedChars hsl_color.h ++ " ".toList
      ++ roundedChars (hsl_color.s * 100) ++ "% ".toList
      ++ roundedChars (hsl_color.l * 100) ++ "%)".toList
  else
    "hsl(".toList ++ roundedChars hsl_color.h ++ " ".toList
      ++ roundedChars (hsl_color.s * 100) ++ "% ".toList
      ++ roundedChars (hsl_color.l * 100) ++ "% / ".toList
      ++ roundedChars (hsl_color.a * 100) ++ "%)".toList

/-- The `hwb_string` of `compute_color_presentations`. -/
def hwbStringOf (parsed_color : Color) : List Char :=
  let hwb_color := parsed_color.to_hwba
  if hwb_color.a = 1 then
    "hwb(".toList ++ roundedChars hwb_color.h ++ " ".toList
      ++ roundedChars (hwb_color.w * 100) ++ "% ".toList
      ++ roundedChars (hwb_color.b * 100) ++ "%)".toList
  else
    "hwb(".toList ++ roundedChars hwb_color.h ++ " ".toList
      ++ roundedChars (hwb_color.w * 100) ++ "% ".toList
      ++ roundedChars (hwb_color.b * 100) ++ "% / ".toList
      ++ roundedChars (hwb_color.a * 100) ++ "%)".toList

/-- `compute_color_presentations` of colors.rs: re-quantize the incoming
color through 8-bit integers, render the four textual forms (RGB, hex,
HSL, HWB, in this order), and wrap each in a presentation whose text edit
replaces the caller-supplied range with the label. -/
def compute_color_presentations (color : ColorInformation) (range : Range) :
    List ColorPresentation :=
  let parsed_color := quantizedColor color.color
  let color_texts := [rgbStringOf parsed_color, parsed_color.to_hex_string,
    hslStringOf parsed_color, hwbStringOf parsed_color]
  color_texts.map (fun text =>
    { label := text, text_edit := some { range := range, new_text := text } })

/-- Value of a hex digit character, upper or lower case. -/
def hexDigitVal (c : Char) : Option ℕ :=
  if '0' ≤ c ∧ c ≤ '9' then some (c.toNat - '0'.toNat)
  else if 'a' ≤ c ∧ c ≤ 'f' then some (c.toNat - 'a'.toNat + 10)
  else if 'A' ≤ c ∧ c ≤ 'F' then some (c.toNat - 'A'.toNat + 10)
  else none

/-- A byte from two hex digit characters. -/
def hexPair (c1 c2 : Char) : Option ℕ :=
  match hexDigitVal c1, hexDigitVal c2 with
  | some h, some l => some (16 * h + l)
  | _, _ => none

/-- Modelled from the spec: the external generic color-string parser,
consumed by the core as a black box from text to a normalized RGBA color
or failure. The hex forms `#rrggbb` and `#rrggbbaa` (each channel one byte
over 255) are the only ones the claims exercise; other color texts are
treated as a parse failure. -/
def parse_color (s : List Char) : Option Color :=
  match s with
  | '#' :: [r1, r2, g1, g2, b1, b2] =>
    match hexPair r1 r2, hexPair g1 g2, hexPair b1 b2 with
    | some r, some g, some b => some (Color.from_rgba8 r g b 255)
    | _, _, _ => none
  | '#' :: [r1, r2, g1, g2, b1, b2, a1, a2] =>
    match hexPair r1 r2, hexPair g1 g2, hexPair b1 b2, hexPair a1 a2 with
    | some r, some g, some b, some a => some (Color.from_rgba8 r g b a)
    | _, _, _, _ => none
  | _ => none

/-- Modelled from the spec: the external static named-CSS-color table,
keyed case-sensitively by identifier text and mapping to an 8-bit RGB
triple; restricted to the entries this development exercises. -/
def NAMED_COLORS : List (List Char × (ℕ × ℕ × ℕ)) :=
  [("red".toList, (255, 0, 0)), ("blue".toList, (0, 0, 255)),
   ("green".toList, (0, 128, 0)), ("black".toList, (0, 0, 0)),
   ("white".toList, (255, 255, 255))]

/-- Table lookup used by the identifier arm of the extractor. -/
def namedColorLookup (t : List Char) : Option (ℕ × ℕ × ℕ) :=
  List.lookup t NAMED_COLORS

/-- The fixed set of color-function names recognized by the function arm
of the extractor. -/
def colorFunctionNames : List (List Char) :=
  ["rgb".toList, "rgba".toList, "hsl".toList, "hsla".toList, "hwb".toList,
   "lab".toList, "lch".toList, "hwba".toList, "hsv".toList, "hsva".toList]

/-- Node kinds distinguished by the extractor; every other biome kind is
collapsed into `CSS_OTHER`, which the extractor treats uniformly. -/
inductive CssSyntaxKind where
  | CSS_FUNCTION
  | CSS_IDENTIFIER
  | CSS_COLOR
  | CSS_OTHER
deriving DecidableEq, Repr

/-- The opaque syntax tree supplied by the external parser: kind tag, full
node text, text range (byte offsets) and ordered children, per the spec's
data model. -/
inductive SyntaxNode where
  | node (kind : CssSyntaxKind) (text : List Char) (text_range : ℕ × ℕ)
    (children : List SyntaxNode)

/-- Kind tag of a node. -/
def SyntaxNode.kind : SyntaxNode → CssSyntaxKind
  | .node k _ _ _ => k

/-- Full source text of a node. -/
def SyntaxNode.text : SyntaxNode → List Char
  | .node _ t _ _ => t

/-- Text range of a node. -/
def SyntaxNode.text_range : SyntaxNode → ℕ × ℕ
  | .node _ _ r _ => r

/-- Ordered children of a node. -/
def SyntaxNode.children : SyntaxNode → List SyntaxNode
  | .node _ _ _ cs => cs

/-- First child of a node, if any. -/
def SyntaxNode.first_child (n : SyntaxNode) : Option SyntaxNode :=
  n.children.head?

/-- Modelled from the spec: the offset-to-position conversion of the
Position Index (converters code outside the given sources), with byte
columns: line from the line-start table, column the offset of the
character within its line. -/
def offsetToPosition (ls : List Nat) (offset : ℕ) : Position :=
  ⟨lineOf ls offset, offset - lineStartOf ls (lineOf ls offset)⟩

/-- Modelled from the spec: conversion of a node text range to an LSP
range via the Position Index. -/
def toRange (ls : List Nat) (tr : ℕ × ℕ) : Range :=
  ⟨offsetToPosition ls tr.1, offsetToPosition ls tr.2⟩

/-- The per-child matching step of `extract_colors_information`, exactly
as written in colors.rs: the match scrutinizes the CHILD's kind, but the
text that is parsed or looked up and the range that is reported are those
of `node` — the parent of `child` — via `node.text()` and
`node.text_range()`. -/
def childMatch (ls : List Nat) (parentText : List Char) (parentRange : ℕ × ℕ)
    (child : SyntaxNode) : List ColorInformation :=
  match child.kind with
  | .CSS_FUNCTION =>
    match child.first_child with
    | some fc =>
      if colorFunctionNames.contains fc.text then
        match parse_color parentText with
        | some c => [⟨c, toRange ls parentRange⟩]
        | none => []
      else []
    | none => []
  | .CSS_IDENTIFIER =>
    match namedColorLookup parentText with
    | some (r, g, b) => [⟨Color.from_rgba8 r g b 255, toRange ls parentRange⟩]
    | none => []
  | .CSS_COLOR =>
    match parse_color parentText with
    | some c => [⟨c, toRange ls parentRange⟩]
    | none => []
  | .CSS_OTHER => []

mutual

/-- `extract_colors_information` of colors.rs: run the per-child matching
loop over the children of `node`, then recurse into every child and
append the results in order. -/
def extract_colors_information (ls : List Nat) : SyntaxNode → List ColorInformation
  | .node _ t r children =>
    (children.map (childMatch ls t r)).flatten ++ extract_colors_list ls children

/-- The recursion of `extract_colors_information` over a child list. -/
def extract_colors_list (ls : List Nat) : List SyntaxNode → List ColorInformation
  | [] => []
  | c :: rest => extract_colors_information ls c ++ extract_colors_list ls rest

end

/-! ## Document store (src/store.rs) -/

/-- `lsp_types::TextDocumentItem`: identity, language tag, client version
and full text. -/
structure TextDocumentItem where
  uri : String
  language_id : String
  version : ℤ
  text : List Char
deriving DecidableEq, Repr

/-- Modelled from the spec: the external CSS parser's output, an opaque
tree determined by the parsed text; store.rs only ever builds, stores and
hands it out, so the text it was built from is the only observable this
development needs. -/
structure CssParse where
  source : List Char
deriving DecidableEq, Repr

/-- Modelled from the spec: `parse_css`, the whole-document invocation of
the external parser. -/
def parse_css (text : List Char) : CssParse := ⟨text⟩

/-- Modelled from the spec: `LineIndex::new` of the converters module
(outside the given sources) — the Position Index built from a text, the
ordered line-start offsets. It coincides with the folding engine's
`lineStarts` computation. -/
def LineIndex.new (text : List Char) : List Nat := lineStarts text

/-- A store entry: the document together with its line index and syntax
tree, as in store.rs. -/
structure StoreEntry where
  document : TextDocumentItem
  line_index : List Nat
  css_tree : CssParse
deriving DecidableEq, Repr

/-- `StoreEntry::new`. -/
def StoreEntry.new (document : TextDocumentItem) (line_index : List Nat)
    (parsed_css : CssParse) : StoreEntry :=
  ⟨document, line_index, parsed_css⟩

/-- The document store: one entry per URI. The hash map is embedded as an
association list with unique keys. -/
structure DocumentStore where
  documents : List (String × StoreEntry)
deriving DecidableEq, Repr

/-- Map update with hash-map semantics: replace the value under an
existing key in place, append a fresh key at the end. -/
def setDoc : List (String × StoreEntry) → String → StoreEntry → List (String × StoreEntry)
  | [], uri, e => [(uri, e)]
  | (k, v) :: rest, uri, e =>
    if k = uri then (k, e) :: rest else (k, v) :: setDoc rest uri e

/-- `DocumentStore::get_or_update_document`: return the cached entry when
the version is unchanged; rebuild document, line index and tree together
from the new text when the version differs; build and insert a fresh
entry when the URI is unknown. Returns the entry the caller receives and
the store after the call. -/
def get_or_update_document (store : DocumentStore) (document : TextDocumentItem) :
    StoreEntry × DocumentStore :=
  match List.lookup document.uri store.documents with
  | none =>
    let line_index := LineIndex.new document.text
    let css_tree := parse_css document.text
    let e := StoreEntry.new document line_index css_tree
    (e, ⟨setDoc store.documents document.uri e⟩)
  | some entry =>
    if document.version ≠ entry.document.version then
      let e : StoreEntry :=
        { document := document,
          line_index := LineIndex.new document.text,
          css_tree := parse_css document.text }
      (e, ⟨setDoc store.documents document.uri e⟩)
    else (entry, store)

/-- `DocumentStore::remove`: unconditional eviction, a no-op when the URI
is absent. -/
def DocumentStore.remove (store : DocumentStore) (uri : String) : DocumentStore :=
  ⟨store.documents.filter (fun kv => kv.1 ≠ uri)⟩

/-- Invariant carried by the folding scan: every stacked start line is at
or before the current line; for every open region marker the full-line
text from the marker's line up to the end of the current line contains
`#region`; and every emitted range already satisfies start < end. -/
def scanInv (source : List Char) (ls : List Nat) (offset : Nat) (st : FoldState) : Prop :=
  (∀ s ∈ st.braces, s ≤ lineOf ls offset) ∧
  (∀ s ∈ st.comments, s ≤ lineOf ls offset) ∧
  (∀ r ∈ st.regions, r ≤ lineOf ls offset ∧
    containsSeq regionPat
      (sliceList source (lineStartOf ls r)
        (endOffsetOf source ls (lineOf ls offset))) = true) ∧
  (∀ fr ∈ st.ranges, fr.start_line < fr.end_line)

/-- An identifier node whose text is the named color `red`: the biome tree
for a multi-valued declaration such as `border-color: red blue` contains
such nodes as direct children of a component value list whose own text
spans both values. -/
def cexIdentRed : SyntaxNode :=
  .node .CSS_IDENTIFIER ("red".toList) (14, 17) []

/-- An identifier node whose text is the named color `blue` (sibling of
`cexIdentRed`). -/
def cexIdentBlue : SyntaxNode :=
  .node .CSS_IDENTIFIER ("blue".toList) (18, 22) []

/-- The component value list node of `border-color: red blue`: its own
text `red blue` spans both identifier children and is keyed on by the
extractor in place of the children's texts. -/
def cexValueList : SyntaxNode :=
  .node .CSS_OTHER ("red blue".toList) (14, 22) [cexIdentRed, cexIdentBlue]

/-- The 8-bit quantized alpha that `compute_color_presentations` keys its
alpha-dependent formatting on: `(alpha * 255.).round() as u8`. -/
def quantAlpha (c : Color) : ℕ := asU8 (rustRound (c.alpha * 255))

/-- The rounded alpha percentage printed in the ` / A%` suffixes, computed
from the quantized alpha: `(parsed_color.a * 100.).round()`. -/
def alphaPercent (k : ℕ) : ℤ := rustRound ((k : ℚ) / 255 * 100)

/-- The ` / A%)` tail the RGB, HSL and HWB labels carry when the quantized
alpha is below 255. -/
def alphaSuffix (k : ℕ) : List Char :=
  " / ".toList ++ intChars (alphaPercent k) ++ "%)".toList

/-! ## Helper lemmas -/

theorem lookup_setDoc (m : List (String × StoreEntry)) (uri : String) (e : StoreEntry) :
    List.lookup uri (setDoc m uri e) = some e := by
  induction m with
  | nil => simp [setDoc, List.lookup]
  | cons kv rest ih =>
    obtain ⟨k, v⟩ := kv
    by_cases h : k = uri
    · subst h; simp [setDoc, List.lookup]
    · have hne : (uri == k) = false := beq_eq_false_iff_ne.mpr (Ne.symm h)
      simp [setDoc, h, List.lookup, hne, ih]

theorem newlineOffsets_length (l : List Char) (i : Nat) :
    (newlineOffsets l i).length = l.countP (fun c => decide (c = '\n')) := by
  induction l generalizing i with
  | nil => simp [newlineOffsets]
  | cons c rest ih =>
    by_cases h : c = '\n' <;> simp [newlineOffsets, h, ih, List.countP_cons]

theorem flushStack_eq (kind : Option FoldingRangeKind) (totalLines : Nat)
    (stack : List Nat) (acc : List FoldingRange) :
    flushStack kind totalLines stack acc =
      acc ++ (stack.filter (fun s => decide (s < totalLines))).map
        (fun s => ⟨s, totalLines, kind⟩) := by
  induction stack generalizing acc with
  | nil => simp [flushStack]
  | cons s rest ih =>
    by_cases h : s < totalLines <;> simp [flushStack, h, ih]

/-! ## Claims -/

/-- C1: for every document text, the end-of-input reconciliation computes
the last content line (the synthetic trailing empty line after a final
line terminator excluded) and emits, for each marker still open, exactly
one range from its start line to that last line — with the construct's
kind — precisely when the start line is strictly below it; markers
starting on the last line emit nothing. -/
theorem folding_eof_reconciliation (source : List Char) :
    compute_folding_ranges source =
      (scanDocument source).ranges
        ++ ((scanDocument source).braces.filter
              (fun s => decide (s < totalLinesOf source))).map
            (fun s => ⟨s, totalLinesOf source, none⟩)
        ++ ((scanDocument source).comments.filter
              (fun s => decide (s < totalLinesOf source))).map
            (fun s => ⟨s, totalLinesOf source, some FoldingRangeKind.comment⟩)
        ++ ((scanDocument source).regions.filter
              (fun s => decide (s < totalLinesOf source))).map
            (fun s => ⟨s, totalLinesOf source, some FoldingRangeKind.region⟩) ∧
    totalLinesOf source =
      (if source.getLast? = some '\n' ∧ 0 < source.countP (fun c => decide (c = '\n'))
       then source.countP (fun c => decide (c = '\n')) - 1
       else source.countP (fun c => decide (c = '\n'))) := by
  constructor
  · simp [compute_folding_ranges, flushStack_eq, List.append_assoc]
  · have hlen : (lineStarts source).length =
        source.countP (fun c => decide (c = '\n')) + 1 := by
      simp [lineStarts, newlineOffsets_length]
    simp [totalLinesOf, hlen]

/-- C2: when a `*/` closes the comment opened on line `s` while the scan
stands on line `e`, the engine takes the text from the start of line `s`
through the start of the line after `e` (or the end of the document) and
classifies on it: `#region` anywhere pushes `s` as an open region marker
and emits nothing; otherwise `#endregion` pops the region stack and, when
a marker was open, emits a Region range from it to `e`; otherwise a
Comment range from `s` to `e` is emitted exactly when `s ≠ e`. -/
theorem folding_comment_close_classification (source : List Char) (ls : List Nat)
    (offset : Nat) (rest : List Char) (st : FoldState) (s : Nat) (cs : List Nat)
    (h : st.comments = s :: cs) :
    scanAux source ls offset ('*' :: '/' :: rest) st =
      scanAux source ls (offset + 2) rest
        (let e := lineOf ls offset
         let content := sliceList source (lineStartOf ls s)
           (if e + 1 < ls.length then lineStartOf ls (e + 1) else source.length)
         if containsSeq regionPat content then
           { st with comments := cs, regions := s :: st.regions }
         else if containsSeq endregionPat content then
           (match st.regions with
            | regionStart :: rs =>
              { st with comments := cs, regions := rs,
                        ranges := st.ranges ++
                          [⟨regionStart, e, some FoldingRangeKind.region⟩] }
            | [] => { st with comments := cs })
         else if s ≠ e then
           { st with comments := cs,
                     ranges := st.ranges ++ [⟨s, e, some FoldingRangeKind.comment⟩] }
         else { st with comments := cs }) := by
  rw [scanAux.eq_3]
  congr 1
  simp only [closeCommentTop, h, closeCommentState, commentContent, endOffsetOf]

/-- Witness for C2 at a concrete input: closing a single-line comment with
no markers pops the comment stack and emits nothing. -/
theorem folding_comment_close_classification_witness :
    (⟨[], [0], [], []⟩ : FoldState).comments = 0 :: [] ∧
    scanAux ("*/".toList) (lineStarts ("*/".toList)) 0 ('*' :: '/' :: [])
        ⟨[], [0], [], []⟩ = ⟨[], [], [], []⟩ := by
  refine ⟨rfl, ?_⟩
  rw [folding_comment_close_classification ("*/".toList) (lineStarts ("*/".toList))
    0 [] ⟨[], [0], [], []⟩ 0 [] rfl]
  decide

/-- C5: a `{` pushes its line onto the brace stack; the matching `}` pops
it and emits exactly one kindless range from the opening line to the
closing line when the two differ, and nothing when the pair sits on one
line; on `"body {\n  margin: 0;\n}\n"` this yields the single range
`[0, 2]` with no kind. -/
theorem folding_brace_pairs :
    (∀ (source : List Char) (ls : List Nat) (offset : Nat) (rest : List Char)
        (st : FoldState),
      scanAux source ls offset ('{' :: rest) st =
        scanAux source ls (offset + 1) rest
          { st with braces := lineOf ls offset :: st.braces }) ∧
    (∀ (source : List Char) (ls : List Nat) (offset : Nat) (rest : List Char)
        (st : FoldState) (s : Nat) (bs : List Nat), st.braces = s :: bs →
      scanAux source ls offset ('}' :: rest) st =
        scanAux source ls (offset + 1) rest
          { st with braces := bs,
                    ranges := st.ranges ++
                      (if s ≠ lineOf ls offset then [⟨s, lineOf ls offset, none⟩]
                       else []) }) ∧
    compute_folding_ranges ("body \x7b\n  margin: 0;\n\x7d\n".toList) =
      [⟨0, 2, none⟩] := by
  refine ⟨?_, ?_, by decide⟩
  · intro source ls offset rest st
    show scanAux source ls (offset + 1) rest (singleCharStep ls offset '{' st) = _
    rw [singleCharStep, if_pos rfl]
  · intro source ls offset rest st s bs h
    show scanAux source ls (offset + 1) rest (singleCharStep ls offset '}' st) = _
    rw [singleCharStep, if_neg (by decide), if_pos rfl, h]

/-- Witness for C5 at a concrete input: popping a brace opened on line 0
while standing on line 0 emits nothing. -/
theorem folding_brace_pairs_witness :
    (⟨[0], [], [], []⟩ : FoldState).braces = 0 :: [] ∧
    scanAux ("\x7b\x7d".toList) (lineStarts ("\x7b\x7d".toList)) 1 ('}' :: [])
        ⟨[0], [], [], []⟩ = ⟨[], [], [], []⟩ := by
  refine ⟨rfl, ?_⟩
  rw [folding_brace_pairs.2.1 ("\x7b\x7d".toList) (lineStarts ("\x7b\x7d".toList))
    1 [] ⟨[0], [], [], []⟩ 0 [] rfl]
  decide

/-- C10: a `}` with an empty brace stack, a `*/` with an empty comment
stack, and an `#endregion`-classified comment with an empty region stack
are each silently ignored — no range is emitted, the marker stacks are
left as they were (for the third case the comment's own marker is popped
by the close itself; braces, regions and ranges are untouched) — and the
scan continues. -/
theorem folding_unmatched_closers_ignored :
    (∀ (source : List Char) (ls : List Nat) (offset : Nat) (rest : List Char)
        (st : FoldState), st.braces = [] →
      scanAux source ls offset ('}' :: rest) st = scanAux source ls (offset + 1) rest st) ∧
    (∀ (source : List Char) (ls : List Nat) (offset : Nat) (rest : List Char)
        (st : FoldState), st.comments = [] →
      scanAux source ls offset ('*' :: '/' :: rest) st =
        scanAux source ls (offset + 2) rest st) ∧
    (∀ (source : List Char) (ls : List Nat) (offset : Nat) (rest : List Char)
        (st : FoldState) (s : Nat) (cs : List Nat),
      st.comments = s :: cs → st.regions = [] →
      containsSeq regionPat (commentContent source ls s (lineOf ls offset)) = false →
      containsSeq endregionPat (commentContent source ls s (lineOf ls offset)) = true →
      scanAux source ls offset ('*' :: '/' :: rest) st =
        scanAux source ls (offset + 2) rest { st with comments := cs }) := by
  refine ⟨?_, ?_, ?_⟩
  · intro source ls offset rest st h
    show scanAux source ls (offset + 1) rest (singleCharStep ls offset '}' st) = _
    rw [singleCharStep, if_neg (by decide), if_pos rfl, h]
  · intro source ls offset rest st h
    rw [scanAux.eq_3]
    congr 1
    rw [closeCommentTop, h]
  · intro source ls offset rest st s cs h hreg hr he
    rw [scanAux.eq_3]
    congr 1
    rw [closeCommentTop, h]
    simp only [closeCommentState, hr, he, hreg]
    simp

/-- Witness for C10 at concrete inputs: each of the three unmatched-closer
scenarios leaves the state unchanged apart from the comment pop that the
close itself performs. -/
theorem folding_unmatched_closers_ignored_witness :
    scanAux ("\x7d".toList) (lineStarts ("\x7d".toList)) 0 ('}' :: [])
        ⟨[], [], [], []⟩ = ⟨[], [], [], []⟩ ∧
    scanAux ("*/".toList) (lineStarts ("*/".toList)) 0 ('*' :: '/' :: [])
        ⟨[], [], [], []⟩ = ⟨[], [], [], []⟩ ∧
    scanAux ("#endregion*/".toList) (lineStarts ("#endregion*/".toList)) 10
        ('*' :: '/' :: []) ⟨[], [0], [], []⟩ = ⟨[], [], [], []⟩ := by
  refine ⟨?_, ?_, ?_⟩
  · rw [folding_unmatched_closers_ignored.1 ("\x7d".toList) (lineStarts ("\x7d".toList))
      0 [] ⟨[], [], [], []⟩ rfl]
    decide
  · rw [folding_unmatched_closers_ignored.2.1 ("*/".toList) (lineStarts ("*/".toList))
      0 [] ⟨[], [], [], []⟩ rfl]
    decide
  · rw [folding_unmatched_closers_ignored.2.2 ("#endregion*/".toList)
      (lineStarts ("#endregion*/".toList)) 10 [] ⟨[], [0], [], []⟩ 0 [] rfl rfl
      (by decide) (by decide)]
    decide

/-- C6: `get_or_update_document` returns the cached entry untouched (text,
line index and tree all unchanged, store unchanged) when the incoming
version equals the stored one; when the versions differ in either
direction it replaces all three fields together from the new document's
text; and for an unknown URI it builds a fresh entry from the text and
inserts it. -/
theorem store_get_or_update_frame (store : DocumentStore) (document : TextDocumentItem) :
    (∀ entry, List.lookup document.uri store.documents = some entry →
      document.version = entry.document.version →
      get_or_update_document store document = (entry, store)) ∧
    (∀ entry, List.lookup document.uri store.documents = some entry →
      document.version ≠ entry.document.version →
      (get_or_update_document store document).1 =
        ⟨document, LineIndex.new document.text, parse_css document.text⟩ ∧
      List.lookup document.uri (get_or_update_document store document).2.documents =
        some (get_or_update_document store document).1) ∧
    (List.lookup document.uri store.documents = none →
      (get_or_update_document store document).1 =
        StoreEntry.new document (LineIndex.new document.text) (parse_css document.text) ∧
      List.lookup document.uri (get_or_update_document store document).2.documents =
        some (get_or_update_document store document).1) := by
  refine ⟨?_, ?_, ?_⟩
  · intro entry hl hv
    simp [get_or_update_document, hl, hv]
  · intro entry hl hv
    simp [get_or_update_document, hl, hv, lookup_setDoc]
  · intro hl
    simp [get_or_update_document, hl, lookup_setDoc]

/-- Witness for C6 at concrete inputs: an unchanged version returns the
cached entry, and a fresh URI inserts a newly built entry. -/
theorem store_get_or_update_frame_witness :
    get_or_update_document
        ⟨[("file:///a.css",
           StoreEntry.new ⟨"file:///a.css", "css", 1, "a".toList⟩
             (LineIndex.new ("a".toList)) (parse_css ("a".toList)))]⟩
        ⟨"file:///a.css", "css", 1, "b".toList⟩ =
      (StoreEntry.new ⟨"file:///a.css", "css", 1, "a".toList⟩
          (LineIndex.new ("a".toList)) (parse_css ("a".toList)),
        ⟨[("file:///a.css",
           StoreEntry.new ⟨"file:///a.css", "css", 1, "a".toList⟩
             (LineIndex.new ("a".toList)) (parse_css ("a".toList)))]⟩) ∧
    (get_or_update_document (⟨[]⟩ : DocumentStore)
        ⟨"file:///b.css", "css", 1, "c".toList⟩).1 =
      StoreEntry.new ⟨"file:///b.css", "css", 1, "c".toList⟩
        (LineIndex.new ("c".toList)) (parse_css ("c".toList)) := by
  constructor
  · exact (store_get_or_update_frame
      ⟨[("file:///a.css",
         StoreEntry.new ⟨"file:///a.css", "css", 1, "a".toList⟩
           (LineIndex.new ("a".toList)) (parse_css ("a".toList)))]⟩
      ⟨"file:///a.css", "css", 1, "b".toList⟩).1 _ (by decide) rfl
  · exact ((store_get_or_update_frame (⟨[]⟩ : DocumentStore)
      ⟨"file:///b.css", "css", 1, "c".toList⟩).2.2 rfl).1

theorem rustRound_natCast (n : ℕ) : rustRound (n : ℚ) = n := by
  rw [rustRound, if_pos (by positivity), Int.floor_eq_iff]
  constructor
  · push_cast; linarith
  · push_cast; linarith

theorem asU8_natCast (n : ℕ) (h : n ≤ 255) : asU8 ((n : ℕ) : ℤ) = n := by
  unfold asU8
  split_ifs <;> omega

theorem asU8_le (z : ℤ) : asU8 z ≤ 255 := by
  unfold asU8
  split_ifs <;> omega

theorem to_rgba8_from_rgba8 (r g b a : ℕ) (hr : r ≤ 255) (hg : g ≤ 255)
    (hb : b ≤ 255) (ha : a ≤ 255) :
    (Color.from_rgba8 r g b a).to_rgba8 = ⟨r, g, b, a⟩ := by
  have key : ∀ n : ℕ, n ≤ 255 → asU8 (rustRound ((n : ℚ) / 255 * 255)) = n := by
    intro n hn
    have hq : ((n : ℚ) / 255 * 255) = (n : ℚ) := by field_simp
    rw [hq, rustRound_natCast, asU8_natCast _ hn]
  unfold Color.from_rgba8 Color.to_rgba8
  simp only
  rw [key _ hr, key _ hg, key _ hb, key _ ha]

theorem div255_eq_one_iff (a : ℕ) : ((a : ℚ) / 255 = 1) ↔ a = 255 := by
  rw [div_eq_one_iff_eq (by norm_num)]
  exact_mod_cast Iff.rfl

theorem to_hsla_a (c : Color) : (Color.to_hsla c).a = c.alpha := by
  simp only [Color.to_hsla]
  split <;> rfl

theorem to_hwba_a (c : Color) : (Color.to_hwba c).a = c.alpha := rfl

theorem percent_suffix_split (X R : List Char) :
    X ++ "% / ".toList ++ R ++ "%)".toList =
      (X ++ ['%']) ++ (" / ".toList ++ R ++ "%)".toList) := by
  simp only [List.append_assoc]
  rfl

theorem hexByteChars_length (n : ℕ) : (hexByteChars n).length = 2 := rfl

/-- C7: for every input color and target range the generator returns
exactly four presentations, in the order RGB, hex, HSL, HWB, each
carrying a text edit over exactly the caller-supplied range whose
replacement text equals the label. -/
theorem color_presentations_shape (color : ColorInformation) (range : Range) :
    ∃ t1 t2 t3 t4,
      compute_color_presentations color range =
        [⟨t1, some ⟨range, t1⟩⟩, ⟨t2, some ⟨range, t2⟩⟩,
         ⟨t3, some ⟨range, t3⟩⟩, ⟨t4, some ⟨range, t4⟩⟩] ∧
      t1.take 4 = "rgb(".toList ∧ t2.take 1 = "#".toList ∧
      t3.take 4 = "hsl(".toList ∧ t4.take 4 = "hwb(".toList := by
  refine ⟨rgbStringOf (quantizedColor color.color),
    (quantizedColor color.color).to_hex_string,
    hslStringOf (quantizedColor color.color),
    hwbStringOf (quantizedColor color.color), rfl, ?_, ?_, ?_, ?_⟩
  · simp only [rgbStringOf]
    split <;> rfl
  · simp only [Color.to_hex_string]
    split <;> rfl
  · simp only [hslStringOf]
    split <;> rfl
  · simp only [hwbStringOf]
    split <;> rfl

theorem rustRound_unit_bounds (q : ℚ) (h0 : 0 ≤ q) (h1 : q ≤ 1) :
    0 ≤ rustRound (q * 255) ∧ rustRound (q * 255) ≤ 255 := by
  rw [rustRound, if_pos (by positivity)]
  constructor
  · rw [Int.le_floor]
    push_cast
    linarith
  · have : Int.floor (q * 255 + 1 / 2) < 256 := by
      rw [Int.floor_lt]
      push_cast
      linarith
    omega

theorem asU8_coe (z : ℤ) (h0 : 0 ≤ z) (h1 : z ≤ 255) : (asU8 z : ℤ) = z := by
  unfold asU8
  split_ifs <;> omega

theorem roundtrip_channel (q : ℚ) (h0 : 0 ≤ q) (h1 : q ≤ 1) :
    rustRound ((asU8 (rustRound (q * 255)) : ℚ) / 255 * 255) = rustRound (q * 255) := by
  have hb := rustRound_unit_bounds q h0 h1
  have hcoe : (asU8 (rustRound (q * 255)) : ℤ) = rustRound (q * 255) :=
    asU8_coe _ hb.1 hb.2
  have hq : ((asU8 (rustRound (q * 255)) : ℚ) / 255 * 255) =
      ((asU8 (rustRound (q * 255)) : ℕ) : ℚ) := by field_simp
  rw [hq, rustRound_natCast, hcoe]

theorem hexPair_byte (x : ℕ) (hx : x ≤ 255) :
    hexPair (Nat.digitChar (x / 16)) (Nat.digitChar (x % 16)) = some x := by
  have h1 : x / 16 < 16 := by omega
  have h2 : x % 16 < 16 := Nat.mod_lt _ (by norm_num)
  have hd : ∀ d < 16, hexDigitVal (Nat.digitChar d) = some d := by decide
  simp only [hexPair, hd _ h1, hd _ h2]
  congr 1
  omega

theorem parse_color_hex6 (r g b : ℕ) (hr : r ≤ 255) (hg : g ≤ 255) (hb : b ≤ 255) :
    parse_color ('#' :: (hexByteChars r ++ hexByteChars g ++ hexByteChars b)) =
      some (Color.from_rgba8 r g b 255) := by
  have hshape : '#' :: (hexByteChars r ++ hexByteChars g ++ hexByteChars b) =
      '#' :: [Nat.digitChar (r / 16), Nat.digitChar (r % 16),
              Nat.digitChar (g / 16), Nat.digitChar (g % 16),
              Nat.digitChar (b / 16), Nat.digitChar (b % 16)] := rfl
  rw [hshape]
  simp only [parse_color, hexPair_byte r hr, hexPair_byte g hg, hexPair_byte b hb]

theorem parse_color_hex8 (r g b a : ℕ) (hr : r ≤ 255) (hg : g ≤ 255) (hb : b ≤ 255)
    (ha : a ≤ 255) :
    parse_color ('#' :: (hexByteChars r ++ hexByteChars g ++ hexByteChars b
        ++ hexByteChars a)) =
      some (Color.from_rgba8 r g b a) := by
  have hshape : '#' :: (hexByteChars r ++ hexByteChars g ++ hexByteChars b
        ++ hexByteChars a) =
      '#' :: [Nat.digitChar (r / 16), Nat.digitChar (r % 16),
              Nat.digitChar (g / 16), Nat.digitChar (g % 16),
              Nat.digitChar (b / 16), Nat.digitChar (b % 16),
              Nat.digitChar (a / 16), Nat.digitChar (a % 16)] := rfl
  rw [hshape]
  simp only [parse_color, hexPair_byte r hr, hexPair_byte g hg, hexPair_byte b hb,
    hexPair_byte a ha]

/-- C4 (amended): the alpha-dependent formatting keys on the 8-bit
quantized alpha `k = (alpha * 255).round() as u8` rather than on the raw
alpha. When `k = 255` the RGB label is `rgb(R G B)` built from the 8-bit
rounded components and the hex label has exactly 6 hex digits; when
`k < 255` the RGB, HSL and HWB labels carry the ` / A%` suffix with
`A = ((k / 255) * 100).round()` and the hex label has exactly 8 hex
digits. -/
theorem color_presentation_alpha_forms (color : ColorInformation) (range : Range) :
    (quantAlpha color.color = 255 →
      ((compute_color_presentations color range).map (fun p => p.label))[0]? =
        some ("rgb(".toList
          ++ natChars (asU8 (rustRound (color.color.red * 255))) ++ " ".toList
          ++ natChars (asU8 (rustRound (color.color.green * 255))) ++ " ".toList
          ++ natChars (asU8 (rustRound (color.color.blue * 255))) ++ ")".toList) ∧
      (∃ h6, ((compute_color_presentations color range).map (fun p => p.label))[1]? =
        some ('#' :: h6) ∧ h6.length = 6)) ∧
    (quantAlpha color.color < 255 →
      (∃ pre, ((compute_color_presentations color range).map (fun p => p.label))[0]? =
        some (pre ++ alphaSuffix (quantAlpha color.color))) ∧
      (∃ h8, ((compute_color_presentations color range).map (fun p => p.label))[1]? =
        some ('#' :: h8) ∧ h8.length = 8) ∧
      (∃ pre, ((compute_color_presentations color range).map (fun p => p.label))[2]? =
        some (pre ++ alphaSuffix (quantAlpha color.color))) ∧
      (∃ pre, ((compute_color_presentations color range).map (fun p => p.label))[3]? =
        some (pre ++ alphaSuffix (quantAlpha color.color)))) := by
  have hmap : (compute_color_presentations color range).map (fun p => p.label) =
      [rgbStringOf (quantizedColor color.color),
       (quantizedColor color.color).to_hex_string,
       hslStringOf (quantizedColor color.color),
       hwbStringOf (quantizedColor color.color)] := rfl
  have halpha : (quantizedColor color.color).alpha = ((quantAlpha color.color : ℕ) : ℚ) / 255 := rfl
  have hrgba : (quantizedColor color.color).to_rgba8 =
      ⟨asU8 (rustRound (color.color.red * 255)), asU8 (rustRound (color.color.green * 255)),
       asU8 (rustRound (color.color.blue * 255)), quantAlpha color.color⟩ :=
    to_rgba8_from_rgba8 _ _ _ _ (asU8_le _) (asU8_le _) (asU8_le _) (asU8_le _)
  constructor
  · intro h
    have halpha1 : (quantizedColor color.color).alpha = 1 := by
      rw [halpha, h]; norm_num
    constructor
    · rw [hmap]
      simp only [List.getElem?_cons_zero, Option.some.injEq]
      simp only [rgbStringOf, hrgba, if_pos halpha1]
    · refine ⟨hexByteChars (asU8 (rustRound (color.color.red * 255)))
        ++ hexByteChars (asU8 (rustRound (color.color.green * 255)))
        ++ hexByteChars (asU8 (rustRound (color.color.blue * 255))), ?_, ?_⟩
      · rw [hmap]
        simp only [List.getElem?_cons_succ, List.getElem?_cons_zero, Option.some.injEq]
        simp only [Color.to_hex_string, hrgba, h]
        rw [if_neg (by omega)]
      · simp [hexByteChars_length]
  · intro h
    have halphane : (quantizedColor color.color).alpha ≠ 1 := by
      rw [halpha]
      intro hcon
      rw [div255_eq_one_iff] at hcon
      omega
    refine ⟨⟨"rgb(".toList
        ++ natChars (asU8 (rustRound (color.color.red * 255))) ++ " ".toList
        ++ natChars (asU8 (rustRound (color.color.green * 255))) ++ " ".toList
        ++ natChars (asU8 (rustRound (color.color.blue * 255))), ?_⟩, ?_, ?_, ?_⟩
    · rw [hmap]
      simp only [List.getElem?_cons_zero, Option.some.injEq]
      simp only [rgbStringOf, hrgba, if_neg halphane]
      simp only [roundedChars, halpha, alphaSuffix, alphaPercent]
      simp only [List.append_assoc]
    · refine ⟨hexByteChars (asU8 (rustRound (color.color.red * 255)))
        ++ hexByteChars (asU8 (rustRound (color.color.green * 255)))
        ++ hexByteChars (asU8 (rustRound (color.color.blue * 255)))
        ++ hexByteChars (quantAlpha color.color), ?_, ?_⟩
      · rw [hmap]
        simp only [List.getElem?_cons_succ, List.getElem?_cons_zero, Option.some.injEq]
        simp only [Color.to_hex_string, hrgba]
        rw [if_pos (by exact h)]
      · simp [hexByteChars_length]
    · refine ⟨("hsl(".toList
        ++ roundedChars ((quantizedColor color.color).to_hsla.h) ++ " ".toList
        ++ roundedChars ((quantizedColor color.color).to_hsla.s * 100) ++ "% ".toList
        ++ roundedChars ((quantizedColor color.color).to_hsla.l * 100)) ++ ['%'], ?_⟩
      rw [hmap]
      simp only [List.getElem?_cons_succ, List.getElem?_cons_zero, Option.some.injEq]
      have hcond : (quantizedColor color.color).to_hsla.a ≠ 1 := by
        rw [to_hsla_a]; exact halphane
      simp only [hslStringOf, if_neg hcond]
      rw [show roundedChars ((quantizedColor color.color).to_hsla.a * 100) =
          intChars (alphaPercent (quantAlpha color.color)) by
        simp only [roundedChars, to_hsla_a, halpha, alphaPercent]]
      exact percent_suffix_split _ _
    · refine ⟨("hwb(".toList
        ++ roundedChars ((quantizedColor color.color).to_hwba.h) ++ " ".toList
        ++ roundedChars ((quantizedColor color.color).to_hwba.w * 100) ++ "% ".toList
        ++ roundedChars ((quantizedColor color.color).to_hwba.b * 100)) ++ ['%'], ?_⟩
      rw [hmap]
      simp only [List.getElem?_cons_succ, List.getElem?_cons_zero, Option.some.injEq]
      have hcond : (quantizedColor color.color).to_hwba.a ≠ 1 := by
        rw [to_hwba_a]; exact halphane
      simp only [hwbStringOf, if_neg hcond]
      rw [show roundedChars ((quantizedColor color.color).to_hwba.a * 100) =
          intChars (alphaPercent (quantAlpha color.color)) by
        simp only [roundedChars, to_hwba_a, halpha, alphaPercent]]
      exact percent_suffix_split _ _

unseal Rat.add Rat.mul Rat.inv Rat.sub in
/-- C4 counterexample: the color (0, 0, 0, 0.999) has alpha strictly
below 1, yet the generated hex label is the 6-digit `#000000` and the
RGB/HSL/HWB labels carry no ` / A%` suffix, because the quantized alpha
`(0.999 * 255).round() as u8` is 255 — against the claim, which demands
an 8-digit hex form and alpha suffixes whenever alpha < 1. -/
theorem color_presentation_alpha_claim_cex :
    ((999 : ℚ) / 1000) < 1 ∧
    (compute_color_presentations ⟨⟨0, 0, 0, 999 / 1000⟩, ⟨⟨0, 0⟩, ⟨0, 0⟩⟩⟩
        ⟨⟨0, 0⟩, ⟨0, 0⟩⟩).map (fun p => p.label) =
      ["rgb(0 0 0)".toList, "#000000".toList, "hsl(0 0% 0%)".toList,
       "hwb(0 0% 100%)".toList] :=
  ⟨by decide, by decide⟩

unseal Rat.add Rat.mul Rat.inv Rat.sub in
/-- Witness for C4 at a concrete input: alpha 1/2 quantizes to 128 < 255
and the hex label indeed has 8 hex digits. -/
theorem color_presentation_alpha_forms_witness :
    quantAlpha ⟨1, 0, 0, 1 / 2⟩ < 255 ∧
    (∃ h8, ((compute_color_presentations ⟨⟨1, 0, 0, 1 / 2⟩, ⟨⟨0, 0⟩, ⟨0, 0⟩⟩⟩
        ⟨⟨0, 0⟩, ⟨0, 0⟩⟩).map (fun p => p.label))[1]? =
      some ('#' :: h8) ∧ h8.length = 8) := by
  refine ⟨by decide, ?_⟩
  exact ((color_presentation_alpha_forms ⟨⟨1, 0, 0, 1 / 2⟩, ⟨⟨0, 0⟩, ⟨0, 0⟩⟩⟩
    ⟨⟨0, 0⟩, ⟨0, 0⟩⟩).2 (by decide)).2.1

/-- C8: parsing the second presentation (the hex form) with the color
parser reproduces the input color's normalized RGBA components up to
8-bit integer rounding of each component. -/
theorem hex_roundtrip (color : ColorInformation) (range : Range)
    (hr0 : 0 ≤ color.color.red) (hr1 : color.color.red ≤ 1)
    (hg0 : 0 ≤ color.color.green) (hg1 : color.color.green ≤ 1)
    (hb0 : 0 ≤ color.color.blue) (hb1 : color.color.blue ≤ 1)
    (ha0 : 0 ≤ color.color.alpha) (ha1 : color.color.alpha ≤ 1) :
    ∃ p c', (compute_color_presentations color range)[1]? = some p ∧
      parse_color p.label = some c' ∧
      rustRound (c'.red * 255) = rustRound (color.color.red * 255) ∧
      rustRound (c'.green * 255) = rustRound (color.color.green * 255) ∧
      rustRound (c'.blue * 255) = rustRound (color.color.blue * 255) ∧
      rustRound (c'.alpha * 255) = rustRound (color.color.alpha * 255) := by
  have hrgba : (quantizedColor color.color).to_rgba8 =
      ⟨asU8 (rustRound (color.color.red * 255)), asU8 (rustRound (color.color.green * 255)),
       asU8 (rustRound (color.color.blue * 255)), asU8 (rustRound (color.color.alpha * 255))⟩ :=
    to_rgba8_from_rgba8 _ _ _ _ (asU8_le _) (asU8_le _) (asU8_le _) (asU8_le _)
  have hb := rustRound_unit_bounds color.color.alpha ha0 ha1
  have hp : (compute_color_presentations color range)[1]? =
      some ⟨(quantizedColor color.color).to_hex_string,
        some ⟨range, (quantizedColor color.color).to_hex_string⟩⟩ := rfl
  by_cases hka : asU8 (rustRound (color.color.alpha * 255)) < 255
  · -- 8-digit hex
    have hlabel : (quantizedColor color.color).to_hex_string =
        '#' :: (hexByteChars (asU8 (rustRound (color.color.red * 255)))
          ++ hexByteChars (asU8 (rustRound (color.color.green * 255)))
          ++ hexByteChars (asU8 (rustRound (color.color.blue * 255)))
          ++ hexByteChars (asU8 (rustRound (color.color.alpha * 255)))) := by
      simp only [Color.to_hex_string, hrgba]
      rw [if_pos (by exact hka)]
    refine ⟨_, Color.from_rgba8 (asU8 (rustRound (color.color.red * 255)))
      (asU8 (rustRound (color.color.green * 255)))
      (asU8 (rustRound (color.color.blue * 255)))
      (asU8 (rustRound (color.color.alpha * 255))), hp, ?_, ?_, ?_, ?_, ?_⟩
    · simp only [hlabel]
      exact parse_color_hex8 _ _ _ _ (asU8_le _) (asU8_le _) (asU8_le _) (asU8_le _)
    · exact roundtrip_channel _ hr0 hr1
    · exact roundtrip_channel _ hg0 hg1
    · exact roundtrip_channel _ hb0 hb1
    · exact roundtrip_channel _ ha0 ha1
  · -- 6-digit hex; the quantized alpha is 255
    have hka255 : asU8 (rustRound (color.color.alpha * 255)) = 255 := by
      have := asU8_le (rustRound (color.color.alpha * 255))
      omega
    have hlabel : (quantizedColor color.color).to_hex_string =
        '#' :: (hexByteChars (asU8 (rustRound (color.color.red * 255)))
          ++ hexByteChars (asU8 (rustRound (color.color.green * 255)))
          ++ hexByteChars (asU8 (rustRound (color.color.blue * 255)))) := by
      simp only [Color.to_hex_string, hrgba]
      rw [if_neg (by exact hka)]
    refine ⟨_, Color.from_rgba8 (asU8 (rustRound (color.color.red * 255)))
      (asU8 (rustRound (color.color.green * 255)))
      (asU8 (rustRound (color.color.blue * 255))) 255, hp, ?_, ?_, ?_, ?_, ?_⟩
    · simp only [hlabel]
      exact parse_color_hex6 _ _ _ (asU8_le _) (asU8_le _) (asU8_le _)
    · exact roundtrip_channel _ hr0 hr1
    · exact roundtrip_channel _ hg0 hg1
    · exact roundtrip_channel _ hb0 hb1
    · rw [← hka255]
      exact roundtrip_channel _ ha0 ha1

/-- Witness for C8 at a concrete input: the color (1, 0, 0, 1/2), whose
hex presentation is `#ff000080`, parses back to the same 8-bit-rounded
components. -/
theorem hex_roundtrip_witness :
    ∃ p c', (compute_color_presentations ⟨⟨1, 0, 0, 1 / 2⟩, ⟨⟨0, 0⟩, ⟨0, 0⟩⟩⟩
        ⟨⟨0, 0⟩, ⟨0, 0⟩⟩)[1]? = some p ∧
      parse_color p.label = some c' ∧
      rustRound (c'.red * 255) = rustRound ((1 : ℚ) * 255) ∧
      rustRound (c'.green * 255) = rustRound ((0 : ℚ) * 255) ∧
      rustRound (c'.blue * 255) = rustRound ((0 : ℚ) * 255) ∧
      rustRound (c'.alpha * 255) = rustRound ((1 / 2 : ℚ) * 255) :=
  hex_roundtrip ⟨⟨1, 0, 0, 1 / 2⟩, ⟨⟨0, 0⟩, ⟨0, 0⟩⟩⟩ ⟨⟨0, 0⟩, ⟨0, 0⟩⟩
    (by norm_num) (by norm_num) (by norm_num) (by norm_num)
    (by norm_num) (by norm_num) (by norm_num) (by norm_num)

/-- C3: the extractor's identifier arm matches the CHILD's kind but looks
up and ranges the PARENT's text (`node.text()`): in the value-list tree
of `border-color: red blue` both identifier children are keys of the
named-color table, yet extraction returns no occurrence at all — against
the claim (and the spec), under which each identifier-token node whose
text is a table key yields exactly one occurrence at its own range. -/
theorem colors_identifier_extraction_on_failing_input :
    cexIdentRed ∈ cexValueList.children ∧
    cexIdentRed.kind = CssSyntaxKind.CSS_IDENTIFIER ∧
    namedColorLookup cexIdentRed.text = some (255, 0, 0) ∧
    extract_colors_information (lineStarts ("border-color: red blue".toList))
      cexValueList = [] := by
  refine ⟨?_, rfl, by decide, by decide⟩
  simp [cexValueList, SyntaxNode.children]

theorem partitionPoint_le_length (p : Nat → Bool) (l : List Nat) :
    partitionPoint p l ≤ l.length := by
  induction l with
  | nil => simp [partitionPoint]
  | cons x rest ih =>
    simp only [partitionPoint, List.length_cons]
    split <;> omega

theorem partitionPoint_mono (p q : Nat → Bool) (hpq : ∀ x, p x = true → q x = true)
    (l : List Nat) : partitionPoint p l ≤ partitionPoint q l := by
  induction l with
  | nil => simp [partitionPoint]
  | cons x rest ih =>
    simp only [partitionPoint]
    by_cases hp : p x = true
    · rw [if_pos hp, if_pos (hpq x hp)]
      omega
    · rw [if_neg hp]
      omega

theorem lineOf_mono (ls : List Nat) (o1 o2 : Nat) (h : o1 ≤ o2) :
    lineOf ls o1 ≤ lineOf ls o2 := by
  have := partitionPoint_mono (fun s => decide (s ≤ o1)) (fun s => decide (s ≤ o2))
    (fun x hx => by simp only [decide_eq_true_eq] at hx ⊢; omega) ls
  unfold lineOf
  omega

theorem lineOf_lt_length (ls : List Nat) (offset : Nat) (hne : ls ≠ []) :
    lineOf ls offset < ls.length := by
  have h1 := partitionPoint_le_length (fun s => decide (s ≤ offset)) ls
  have h2 : 0 < ls.length := List.length_pos.mpr hne
  unfold lineOf
  omega

theorem newlineOffsets_bounds (l : List Char) (i : Nat) :
    ∀ x ∈ newlineOffsets l i, i < x ∧ x ≤ i + l.length := by
  induction l generalizing i with
  | nil => simp [newlineOffsets]
  | cons c rest ih =>
    intro x hx
    simp only [newlineOffsets] at hx
    by_cases h : c = '\n'
    · rw [if_pos h] at hx
      rcases List.mem_cons.mp hx with h1 | h1
      · subst h1
        simp only [List.length_cons]
        omega
      · have := ih (i + 1) x h1
        simp only [List.length_cons]
        omega
    · rw [if_neg h] at hx
      have := ih (i + 1) x hx
      simp only [List.length_cons]
      omega

theorem newlineOffsets_pairwise (l : List Char) (i : Nat) :
    (newlineOffsets l i).Pairwise (· < ·) := by
  induction l generalizing i with
  | nil => simp [newlineOffsets]
  | cons c rest ih =>
    simp only [newlineOffsets]
    by_cases h : c = '\n'
    · rw [if_pos h]
      exact List.Pairwise.cons
        (fun x hx => (newlineOffsets_bounds rest (i + 1) x hx).1) (ih (i + 1))
    · rw [if_neg h]
      exact ih (i + 1)

theorem lineStarts_pairwise (source : List Char) :
    (lineStarts source).Pairwise (· < ·) :=
  List.Pairwise.cons
    (fun x hx => Nat.lt_of_le_of_lt (Nat.zero_le 0)
      (newlineOffsets_bounds source 0 x hx).1)
    (newlineOffsets_pairwise source 0)

theorem lineStarts_le_length (source : List Char) :
    ∀ x ∈ lineStarts source, x ≤ source.length := by
  intro x hx
  rcases List.mem_cons.mp hx with h | h
  · omega
  · have := (newlineOffsets_bounds source 0 x h).2
    omega

theorem getD_mono_of_pairwise (l : List Nat) (hp : l.Pairwise (· < ·)) (i j : Nat)
    (hij : i ≤ j) (hj : j < l.length) : l.getD i 0 ≤ l.getD j 0 := by
  rcases Nat.eq_or_lt_of_le hij with h | h
  · subst h
    exact le_refl _
  · have hi : i < l.length := lt_trans h hj
    rw [l.getD_eq_getElem 0 hi, l.getD_eq_getElem 0 hj]
    exact le_of_lt (List.pairwise_iff_getElem.mp hp i j hi hj h)

theorem lineStartOf_le_source_length (source : List Char) (i : Nat) :
    lineStartOf (lineStarts source) i ≤ source.length := by
  unfold lineStartOf
  by_cases h : i < (lineStarts source).length
  · rw [(lineStarts source).getD_eq_getElem 0 h]
    exact lineStarts_le_length source _ (List.getElem_mem h)
  · rw [List.getD_eq_default _ _ (by omega)]
    omega

theorem endOffsetOf_mono (source : List Char) (e e' : Nat) (h : e ≤ e') :
    endOffsetOf source (lineStarts source) e ≤ endOffsetOf source (lineStarts source) e' := by
  unfold endOffsetOf
  by_cases h1 : e + 1 < (lineStarts source).length
  · rw [if_pos h1]
    by_cases h2 : e' + 1 < (lineStarts source).length
    · rw [if_pos h2]
      exact getD_mono_of_pairwise _ (lineStarts_pairwise source) _ _ (by omega) h2
    · rw [if_neg h2]
      exact lineStartOf_le_source_length source (e + 1)
  · rw [if_neg h1, if_neg (by omega)]

theorem sliceList_eq_take_drop (source : List Char) (a b : Nat) :
    sliceList source a b = (source.drop a).take (b - a) := by
  unfold sliceList
  rw [List.drop_take]

theorem sliceList_extend (source : List Char) (a b b' : Nat) (h : b ≤ b') :
    ∃ t, sliceList source a b' = sliceList source a b ++ t := by
  rw [sliceList_eq_take_drop, sliceList_eq_take_drop]
  refine ⟨((source.drop a).drop (b - a)).take (b' - a - (b - a)), ?_⟩
  have hsplit : b' - a = (b - a) + (b' - a - (b - a)) := by omega
  rw [hsplit, List.take_add]
  have harith : b - a + (b' - a - (b - a)) - (b - a) = b' - a - (b - a) := by omega
  rw [harith]

theorem sliceList_drop_left (source : List Char) (a a' b : Nat) (h : a ≤ a') :
    ∃ t, sliceList source a b = t ++ sliceList source a' b := by
  unfold sliceList
  refine ⟨((source.take b).drop a).take (a' - a), ?_⟩
  have hdd : (source.take b).drop a' = ((source.take b).drop a).drop (a' - a) := by
    rw [List.drop_drop]
    congr 1
    omega
  rw [hdd, List.take_append_drop]

theorem startsWithSeq_append (p l t : List Char) (h : startsWithSeq p l = true) :
    startsWithSeq p (l ++ t) = true := by
  induction p generalizing l with
  | nil => rfl
  | cons c cs ih =>
    cases l with
    | nil => simp [startsWithSeq] at h
    | cons x xs =>
      simp only [startsWithSeq, List.cons_append, Bool.and_eq_true] at h ⊢
      exact ⟨h.1, ih xs h.2⟩

theorem containsSeq_nil_pat (l : List Char) : containsSeq [] l = true := by
  cases l <;> simp [containsSeq, startsWithSeq]

theorem containsSeq_append_right (p l t : List Char) (h : containsSeq p l = true) :
    containsSeq p (l ++ t) = true := by
  induction l with
  | nil =>
    cases p with
    | nil => exact containsSeq_nil_pat t
    | cons q qs => simp [containsSeq, startsWithSeq] at h
  | cons x xs ih =>
    simp only [containsSeq, List.cons_append, Bool.or_eq_true] at h ⊢
    rcases h with h | h
    · exact Or.inl (startsWithSeq_append _ _ _ h)
    · exact Or.inr (ih h)

theorem containsSeq_append_left (p t l : List Char) (h : containsSeq p l = true) :
    containsSeq p (t ++ l) = true := by
  induction t with
  | nil => exact h
  | cons x xs ih =>
    simp only [List.cons_append, containsSeq, Bool.or_eq_true]
    exact Or.inr ih

theorem scanInv_mono (source : List Char) (o1 o2 : Nat) (h : o1 ≤ o2) (st : FoldState)
    (hinv : scanInv source (lineStarts source) o1 st) :
    scanInv source (lineStarts source) o2 st := by
  obtain ⟨hb, hc, hr, hra⟩ := hinv
  have hlm := lineOf_mono (lineStarts source) o1 o2 h
  refine ⟨fun s hs => le_trans (hb s hs) hlm, fun s hs => le_trans (hc s hs) hlm,
    ?_, hra⟩
  intro r hr1
  obtain ⟨h1, h2⟩ := hr r hr1
  refine ⟨le_trans h1 hlm, ?_⟩
  obtain ⟨t, ht⟩ := sliceList_extend source (lineStartOf (lineStarts source) r)
    (endOffsetOf source (lineStarts source) (lineOf (lineStarts source) o1))
    (endOffsetOf source (lineStarts source) (lineOf (lineStarts source) o2))
    (endOffsetOf_mono source _ _ hlm)
  rw [ht]
  exact containsSeq_append_right _ _ _ h2

theorem scanInv_singleCharStep (source : List Char) (offset : Nat) (c : Char)
    (st : FoldState) (hinv : scanInv source (lineStarts source) offset st) :
    scanInv source (lineStarts source) offset
      (singleCharStep (lineStarts source) offset c st) := by
  obtain ⟨hb, hc, hr, hra⟩ := hinv
  unfold singleCharStep
  split_ifs with h1 h2
  · refine ⟨?_, hc, hr, hra⟩
    intro s hs
    rcases List.mem_cons.mp hs with h | h
    · exact h ▸ le_refl _
    · exact hb s h
  · cases hbr : st.braces with
    | nil =>
      simp only [hbr]
      exact ⟨hbr ▸ hb, hc, hr, hra⟩
    | cons s bs =>
      simp only [hbr]
      refine ⟨?_, hc, hr, ?_⟩
      · intro x hx
        exact hb x (hbr ▸ List.mem_cons_of_mem _ hx)
      · intro fr hfr
        rcases List.mem_append.mp hfr with h | h
        · exact hra fr h
        · by_cases hse : s ≠ lineOf (lineStarts source) offset
          · rw [if_pos hse] at h
            rcases List.mem_singleton.mp h with rfl
            have hle : s ≤ lineOf (lineStarts source) offset :=
              hb s (hbr ▸ List.mem_cons_self _ _)
            simp only
            omega
          · rw [if_neg hse] at h
            simp at h
  · exact ⟨hb, hc, hr, hra⟩

theorem scanInv_closeCommentTop (source : List Char) (offset : Nat) (st : FoldState)
    (hinv : scanInv source (lineStarts source) offset st) :
    scanInv source (lineStarts source) offset
      (closeCommentTop source (lineStarts source) offset st) := by
  obtain ⟨hb, hc, hr, hra⟩ := hinv
  unfold closeCommentTop
  cases hcm : st.comments with
  | nil =>
    simp only [hcm]
    exact ⟨hb, hcm ▸ hc, hr, hra⟩
  | cons s0 cs =>
    simp only [hcm]
    have hs0 : s0 ≤ lineOf (lineStarts source) offset :=
      hc s0 (hcm ▸ List.mem_cons_self _ _)
    have hcs : ∀ s ∈ cs, s ≤ lineOf (lineStarts source) offset :=
      fun s hs => hc s (hcm ▸ List.mem_cons_of_mem _ hs)
    simp only [closeCommentState]
    split_ifs with hreg hend hne
    · -- a `#region` comment: push its start line
      refine ⟨hb, hcs, ?_, hra⟩
      intro r hr1
      rcases List.mem_cons.mp hr1 with h | h
      · subst h
        exact ⟨hs0, hreg⟩
      · exact hr r h
    · -- an `#endregion` comment: pop the region stack if possible
      cases hrg : st.regions with
      | nil =>
        simp only [hrg]
        exact ⟨hb, hcs, hrg ▸ hr, hra⟩
      | cons r0 rs =>
        simp only [hrg]
        have hr0 := hr r0 (hrg ▸ List.mem_cons_self _ _)
        have hne0 : r0 ≠ lineOf (lineStarts source) offset := by
          intro heq
          -- the whole of line r0 is inside the classified content, and the
          -- suffix of the content from line r0 on contains `#region`
          have hls : lineStartOf (lineStarts source) s0 ≤ lineStartOf (lineStarts source) r0 := by
            apply getD_mono_of_pairwise _ (lineStarts_pairwise source)
            · omega
            · rw [heq]
              exact lineOf_lt_length _ offset (by simp [lineStarts])
          obtain ⟨t, ht⟩ := sliceList_drop_left source
            (lineStartOf (lineStarts source) s0) (lineStartOf (lineStarts source) r0)
            (endOffsetOf source (lineStarts source) (lineOf (lineStarts source) offset)) hls
          have hcontain : containsSeq regionPat
              (commentContent source (lineStarts source) s0
                (lineOf (lineStarts source) offset)) = true := by
            unfold commentContent
            rw [ht]
            exact containsSeq_append_left _ _ _ hr0.2
          simp [hcontain] at hreg
        refine ⟨hb, hcs, ?_, ?_⟩
        · intro r hrx
          exact hr r (hrg ▸ List.mem_cons_of_mem _ hrx)
        · intro fr hfr
          rcases List.mem_append.mp hfr with h | h
          · exact hra fr h
          · rcases List.mem_singleton.mp h with rfl
            simp only
            omega
    · -- a plain multi-line comment: emit a Comment range
      refine ⟨hb, hcs, hr, ?_⟩
      intro fr hfr
      rcases List.mem_append.mp hfr with h | h
      · exact hra fr h
      · rcases List.mem_singleton.mp h with rfl
        simp only
        omega
    · exact ⟨hb, hcs, hr, hra⟩

theorem scanAux_inv (source : List Char) (n : Nat) :
    ∀ (rest : List Char), rest.length ≤ n → ∀ (offset : Nat) (st : FoldState),
      scanInv source (lineStarts source) offset st →
      ∀ fr ∈ (scanAux source (lineStarts source) offset rest st).ranges,
        fr.start_line < fr.end_line := by
  induction n with
  | zero =>
    intro rest hlen offset st hinv
    have : rest = [] := List.length_eq_zero.mp (by omega)
    subst this
    rw [scanAux.eq_1]
    exact hinv.2.2.2
  | succ n ih =>
    intro rest hlen offset st hinv
    cases rest with
    | nil =>
      rw [scanAux.eq_1]
      exact hinv.2.2.2
    | cons c rest1 =>
      cases rest1 with
      | nil =>
        rw [scanAux.eq_4 _ _ _ _ _ _ (by intro _ _ h; cases h) (by intro _ _ h; cases h)]
        apply ih [] (by simp)
        exact scanInv_mono source offset (offset + 1) (by omega) _
          (scanInv_singleCharStep source offset c st hinv)
      | cons c2 rest2 =>
        by_cases h1 : c = '/' ∧ c2 = '*'
        · obtain ⟨hc1, hc2⟩ := h1
          subst hc1
          subst hc2
          rw [scanAux.eq_2]
          apply ih rest2 (by simp at hlen; omega)
          have hpush : scanInv source (lineStarts source) offset
              { st with comments := lineOf (lineStarts source) offset :: st.comments } := by
            obtain ⟨hb, hc, hr, hra⟩ := hinv
            refine ⟨hb, ?_, hr, hra⟩
            intro s hs
            rcases List.mem_cons.mp hs with h | h
            · exact h ▸ le_refl _
            · exact hc s h
          exact scanInv_mono source offset (offset + 2) (by omega) _ hpush
        · by_cases h2 : c = '*' ∧ c2 = '/'
          · obtain ⟨hc1, hc2⟩ := h2
            subst hc1
            subst hc2
            rw [scanAux.eq_3]
            apply ih rest2 (by simp at hlen; omega)
            exact scanInv_mono source offset (offset + 2) (by omega) _
              (scanInv_closeCommentTop source offset st hinv)
          · rw [scanAux.eq_4 _ _ _ _ _ _
              (by intro r' hc hr; exact h1 ⟨hc, by injection hr⟩)
              (by intro r' hc hr; exact h2 ⟨hc, by injection hr⟩)]
            apply ih (c2 :: rest2) (by simp at hlen ⊢; omega)
            exact scanInv_mono source offset (offset + 1) (by omega) _
              (scanInv_singleCharStep source offset c st hinv)

/-- C9: every folding range the engine returns has a start line strictly
below its end line — including the Region ranges emitted when an
`#endregion` comment closes during the scan, for which the code has no
explicit same-line guard (the guard is implied: a region marker opening
and closing on one line would make that line's text contain `#region`,
so the closing comment would classify as a region opener instead). -/
theorem folding_ranges_start_lt_end (source : List Char) :
    ∀ fr ∈ compute_folding_ranges source, fr.start_line < fr.end_line := by
  intro fr hfr
  unfold compute_folding_ranges at hfr
  simp only [flushStack_eq] at hfr
  have hscan : ∀ fr ∈ (scanDocument source).ranges, fr.start_line < fr.end_line := by
    unfold scanDocument
    apply scanAux_inv source source.length source (le_refl _) 0 initialFoldState
    refine ⟨?_, ?_, ?_, ?_⟩ <;> intro x hx <;> simp [initialFoldState] at hx
  rcases List.mem_append.mp hfr with h | h
  · rcases List.mem_append.mp h with h | h
    · rcases List.mem_append.mp h with h | h
      · exact hscan fr h
      · obtain ⟨s, hs, rfl⟩ := List.mem_map.mp h
        have := List.mem_filter.mp hs
        simp only [decide_eq_true_eq] at this
        exact this.2
    · obtain ⟨s, hs, rfl⟩ := List.mem_map.mp h
      have := List.mem_filter.mp hs
      simp only [decide_eq_true_eq] at this
      exact this.2
  · obtain ⟨s, hs, rfl⟩ := List.mem_map.mp h
    have := List.mem_filter.mp hs
    simp only [decide_eq_true_eq] at this
    exact this.2

/-- Witness for C9 at a concrete input: the single range of
`"body {\n  margin: 0;\n}\n"` satisfies start < end. -/
theorem folding_ranges_start_lt_end_witness :
    (⟨0, 2, none⟩ : FoldingRange) ∈
      compute_folding_ranges ("body \x7b\n  margin: 0;\n\x7d\n".toList) ∧
    (⟨0, 2, none⟩ : FoldingRange).start_line < (⟨0, 2, none⟩ : FoldingRange).end_line :=
  ⟨by decide, folding_ranges_start_lt_end ("body \x7b\n  margin: 0;\n\x7d\n".toList)
    ⟨0, 2, none⟩ (by decide)⟩
